import Mathlib

/-!
Verification development for the Alphatrade rebalancing engine.

The Python source is shallowly embedded over exact rationals (`ℚ`):
dictionaries become association lists `List (String × β)` looked up with
`vlookup`, Python float arithmetic becomes `ℚ` arithmetic, and fallible
lookups become `Option`.  Each definition mirrors one function or inline
block of `src/trader.py`, `src/strategy.py`, `src/llm_policy.py` or
`src/memory.py`; the mirrored lines are cited in the doc comments.
-/

/-- Association-list lookup: first binding of `k`, mirroring Python `dict` access. -/
def vlookup {β : Type} (m : List (String × β)) (k : String) : Option β :=
  match m with
  | [] => none
  | (k₁, v) :: rest => if k₁ = k then some v else vlookup rest k

/-- `m.get(k, d)` of a Python dict. -/
def getD {β : Type} (m : List (String × β)) (k : String) (d : β) : β :=
  (vlookup m k).getD d

/-- Sum of the values of an association list (`sum(m.values())`). -/
def sumV (m : List (String × ℚ)) : ℚ :=
  (m.map Prod.snd).sum

/-- Python `dict` assignment `m[k] = v`: overwrite in place, else append. -/
def insertA (m : List (String × ℚ)) (k : String) (v : ℚ) : List (String × ℚ) :=
  match m with
  | [] => [(k, v)]
  | (k₁, v₁) :: rest => if k₁ = k then (k, v) :: rest else (k₁, v₁) :: insertA rest k v

/-- Python `int(x)` on a float: truncation toward zero. -/
def qtrunc (q : ℚ) : ℤ :=
  if 0 ≤ q then ⌊q⌋ else ⌈q⌉

/-- The effective price used for whole-share conversion (trader.py:217):
`px = last_px.get(sym, 0.0) or 1.0`, so a missing or zero price falls back
to `1.0`. -/
def pxOf (last_px : List (String × ℚ)) (s : String) : ℚ :=
  match vlookup last_px s with
  | some p => if p = 0 then 1 else p
  | none => 1

/-- Order side, `side = "buy" if delta > 0 else "sell"` (trader.py:213). -/
inductive Side
  | buy
  | sell
deriving DecidableEq, Repr

/-- An order carries either a notional amount or a whole-share quantity
(trader.py:215 and 219). -/
inductive Amt
  | notional (v : ℚ)
  | qty (n : ℤ)
deriving DecidableEq, Repr

/-- An order instruction as appended to `orders` in trader.py:206-219. -/
structure Order where
  sym : String
  side : Side
  amt : Amt
deriving DecidableEq, Repr

/-- The order-building loop of `main` (trader.py:204-219).

`targets` maps symbol to target notional, `positions` maps symbol to current
market value, `last_px` is the price map, `fractionable` the fractionability
flags, `minN` the dust threshold `MIN_ORDER_NOTIONAL`.  The loop ranges over
`targets.items()` only.  For a non-fractionable symbol the price is
`last_px.get(sym, 0.0) or 1.0`, i.e. a missing or zero price falls back
to `1.0`. -/
def build_orders (targets positions last_px : List (String × ℚ))
    (fractionable : List (String × Bool)) (minN : ℚ) : List Order :=
  match targets with
  | [] => []
  | (sym, tgt) :: rest =>
    let cur : ℚ := getD positions sym 0
    let delta : ℚ := tgt - cur
    let restOrders := build_orders rest positions last_px fractionable minN
    if |delta| < minN then restOrders
    else
      let side : Side := if 0 < delta then Side.buy else Side.sell
      if getD fractionable sym false then
        ⟨sym, side, Amt.notional |delta|⟩ :: restOrders
      else
        let q : ℤ := qtrunc (|delta| / pxOf last_px sym)
        if 0 < q then ⟨sym, side, Amt.qty q⟩ :: restOrders else restOrders

/-- `delta = target(sym) − current_market_value(sym)` with absent sides read as 0. -/
def deltaOf (targets positions : List (String × ℚ)) (s : String) : ℚ :=
  getD targets s 0 - getD positions s 0

/-- C6: the dust filter (trader.py:210-212) uses a strict `<` comparison:
for a fractionable symbol, a delta whose absolute value equals the dust
threshold exactly produces an order, and a delta of `threshold − 0.01`
produces no order. -/
theorem dust_boundary (s : String) (tgt cur d : ℚ) :
    (|tgt - cur| = d →
      build_orders [(s, tgt)] [(s, cur)] [] [(s, true)] d =
        [⟨s, if 0 < tgt - cur then Side.buy else Side.sell, Amt.notional |tgt - cur|⟩]) ∧
    (|tgt - cur| = d - 1/100 →
      build_orders [(s, tgt)] [(s, cur)] [] [(s, true)] d = []) := by
  constructor
  · intro h
    subst h
    simp [build_orders, getD, vlookup]
  · intro h
    have hlt : |tgt - cur| < d := by rw [h]; linarith
    simp [build_orders, getD, vlookup, hlt]

/-- Witness for `dust_boundary` at concrete inputs: delta 100 with threshold
100 yields exactly one order, delta 99.99 with threshold 100 yields none. -/
theorem dust_boundary_witness :
    (build_orders [("A", (100 : ℚ))] [("A", 0)] [] [("A", true)] 100).length = 1 ∧
    build_orders [("A", (9999 : ℚ)/100)] [("A", 0)] [] [("A", true)] 100 = [] := by
  constructor
  · rw [(dust_boundary "A" 100 0 100).1 (by norm_num)]
    rfl
  · exact (dust_boundary "A" (9999/100) 0 100).2 (by norm_num)

lemma vlookup_cons_self {β : Type} (k : String) (v : β) (rest : List (String × β)) :
    vlookup ((k, v) :: rest) k = some v := by
  simp [vlookup]

lemma vlookup_cons_ne {β : Type} {k₁ k : String} (h : k₁ ≠ k) (v : β)
    (rest : List (String × β)) : vlookup ((k₁, v) :: rest) k = vlookup rest k := by
  simp [vlookup, h]

lemma deltaOf_cons_self (sym : String) (tgt : ℚ) (rest positions : List (String × ℚ)) :
    deltaOf ((sym, tgt) :: rest) positions sym = tgt - getD positions sym 0 := by
  simp [deltaOf, getD, vlookup_cons_self]

lemma deltaOf_cons_ne {s sym : String} (h : sym ≠ s) (tgt : ℚ)
    (rest positions : List (String × ℚ)) :
    deltaOf ((sym, tgt) :: rest) positions s = deltaOf rest positions s := by
  simp [deltaOf, getD, vlookup_cons_ne h]

/-- One-step unfolding of the order-building loop at a cons cell. -/
lemma build_orders_cons (sym : String) (tgt : ℚ)
    (rest positions last_px : List (String × ℚ)) (fr : List (String × Bool)) (minN : ℚ) :
    build_orders ((sym, tgt) :: rest) positions last_px fr minN =
      (if |tgt - getD positions sym 0| < minN then
        build_orders rest positions last_px fr minN
      else if getD fr sym false then
        ⟨sym, if 0 < tgt - getD positions sym 0 then Side.buy else Side.sell,
          Amt.notional |tgt - getD positions sym 0|⟩ ::
          build_orders rest positions last_px fr minN
      else if 0 < qtrunc (|tgt - getD positions sym 0| / pxOf last_px sym) then
        ⟨sym, if 0 < tgt - getD positions sym 0 then Side.buy else Side.sell,
          Amt.qty (qtrunc (|tgt - getD positions sym 0| / pxOf last_px sym))⟩ ::
          build_orders rest positions last_px fr minN
      else build_orders rest positions last_px fr minN) := by
  rw [build_orders]

/-- Every emitted order's symbol comes from the targets map (no Nodup needed). -/
lemma build_orders_sym_subset (targets positions last_px : List (String × ℚ))
    (fr : List (String × Bool)) (minN : ℚ) :
    ∀ o ∈ build_orders targets positions last_px fr minN, o.sym ∈ targets.map Prod.fst := by
  induction targets with
  | nil => intro o ho; simp [build_orders] at ho
  | cons hd rest ih =>
    obtain ⟨sym, tgt⟩ := hd
    intro o ho
    rw [build_orders_cons] at ho
    simp only [List.map_cons, List.mem_cons]
    split at ho
    · exact Or.inr (ih o ho)
    · split at ho
      · rcases List.mem_cons.mp ho with h | h
        · exact Or.inl (by rw [h])
        · exact Or.inr (ih o h)
      · split at ho
        · rcases List.mem_cons.mp ho with h | h
          · exact Or.inl (by rw [h])
          · exact Or.inr (ih o h)
        · exact Or.inr (ih o ho)

/-- Per-order characterization: under distinct target keys, every emitted
order's delta clears the dust threshold and its side is the sign of the
delta (trader.py:207-213). -/
lemma build_orders_mem_spec (targets positions last_px : List (String × ℚ))
    (fr : List (String × Bool)) (minN : ℚ)
    (hnd : (targets.map Prod.fst).Nodup) :
    ∀ o ∈ build_orders targets positions last_px fr minN,
      minN ≤ |deltaOf targets positions o.sym| ∧
      o.side = (if 0 < deltaOf targets positions o.sym then Side.buy else Side.sell) := by
  induction targets with
  | nil => intro o ho; simp [build_orders] at ho
  | cons hd rest ih =>
    obtain ⟨sym, tgt⟩ := hd
    have hnd2 := hnd
    rw [List.map_cons, List.nodup_cons] at hnd2
    have hsym_notin : sym ∉ rest.map Prod.fst := hnd2.1
    have hnd' : (rest.map Prod.fst).Nodup := hnd2.2
    have hrest : ∀ o ∈ build_orders rest positions last_px fr minN,
        minN ≤ |deltaOf ((sym, tgt) :: rest) positions o.sym| ∧
        o.side = (if 0 < deltaOf ((sym, tgt) :: rest) positions o.sym then Side.buy
          else Side.sell) := by
      intro o ho
      have hks : o.sym ∈ rest.map Prod.fst := build_orders_sym_subset _ _ _ _ _ o ho
      have hne : sym ≠ o.sym := fun h => hsym_notin (h ▸ hks)
      rw [deltaOf_cons_ne hne]
      exact ih hnd' o ho
    intro o ho
    rw [build_orders_cons] at ho
    split at ho
    · exact hrest o ho
    · rename_i hdust
      have hd0 : minN ≤ |tgt - getD positions sym 0| := not_lt.mp hdust
      split at ho
      · rcases List.mem_cons.mp ho with h | h
        · subst h
          simp only [deltaOf_cons_self]
          exact ⟨hd0, trivial⟩
        · exact hrest o h
      · split at ho
        · rcases List.mem_cons.mp ho with h | h
          · subst h
            simp only [deltaOf_cons_self]
            exact ⟨hd0, trivial⟩
          · exact hrest o h
        · exact hrest o ho

/-- A fractionable target entry whose delta clears the dust threshold is
emitted as a notional order (trader.py:214-215); no Nodup needed since
`vlookup` selects the first entry and the loop visits it. -/
lemma build_orders_emits_fractionable (targets positions last_px : List (String × ℚ))
    (fr : List (String × Bool)) (minN : ℚ) (s : String) (tgt : ℚ)
    (hlk : vlookup targets s = some tgt)
    (hfr : getD fr s false = true)
    (hmin : minN ≤ |tgt - getD positions s 0|) :
    (⟨s, if 0 < tgt - getD positions s 0 then Side.buy else Side.sell,
      Amt.notional |tgt - getD positions s 0|⟩ : Order) ∈
      build_orders targets positions last_px fr minN := by
  induction targets with
  | nil => simp [vlookup] at hlk
  | cons hd rest ih =>
    obtain ⟨k, v⟩ := hd
    by_cases hks : k = s
    · subst hks
      rw [vlookup_cons_self] at hlk
      obtain rfl : v = tgt := by simpa using hlk
      rw [build_orders_cons]
      rw [if_neg (not_lt.mpr hmin), if_pos hfr]
      exact List.mem_cons_self _ _
    · rw [vlookup_cons_ne hks] at hlk
      have hmem := ih hlk
      rw [build_orders_cons]
      split
      · exact hmem
      · split
        · exact List.mem_cons_of_mem _ hmem
        · split
          · exact List.mem_cons_of_mem _ hmem
          · exact hmem

/-- C1 (amended): the Order Diff Engine iterates only over the target map
(trader.py:207), never the union with current positions.  For symbols in
targets, `delta = target − current market value` (absent position read as 0),
orders are gated by the dust threshold and sided by the sign of the delta;
a symbol absent from targets — however large its current market value —
never yields an order. -/
theorem build_orders_targets_only (targets positions last_px : List (String × ℚ))
    (fr : List (String × Bool)) (minN : ℚ)
    (hnd : (targets.map Prod.fst).Nodup) :
    (∀ o ∈ build_orders targets positions last_px fr minN,
        o.sym ∈ targets.map Prod.fst ∧
        minN ≤ |deltaOf targets positions o.sym| ∧
        o.side = (if 0 < deltaOf targets positions o.sym then Side.buy else Side.sell)) ∧
    (∀ s tgt, vlookup targets s = some tgt → getD fr s false = true →
        minN ≤ |tgt - getD positions s 0| →
        (⟨s, if 0 < tgt - getD positions s 0 then Side.buy else Side.sell,
          Amt.notional |tgt - getD positions s 0|⟩ : Order) ∈
          build_orders targets positions last_px fr minN) ∧
    (∀ s, s ∉ targets.map Prod.fst →
        ∀ o ∈ build_orders targets positions last_px fr minN, o.sym ≠ s) := by
  refine ⟨?_, ?_, ?_⟩
  · intro o ho
    exact ⟨build_orders_sym_subset _ _ _ _ _ o ho,
      build_orders_mem_spec _ _ _ _ _ hnd o ho⟩
  · intro s tgt h1 h2 h3
    exact build_orders_emits_fractionable _ _ _ _ _ s tgt h1 h2 h3
  · intro s hs o ho heq
    exact hs (heq ▸ build_orders_sym_subset _ _ _ _ _ o ho)

/-- Witness for `build_orders_targets_only`: a concrete fractionable target
with delta 100 over threshold 25 is emitted. -/
theorem build_orders_targets_only_witness :
    (⟨"A", Side.buy, Amt.notional 100⟩ : Order) ∈
      build_orders [("A", (100 : ℚ))] [] [] [("A", true)] 25 := by
  have h := (build_orders_targets_only [("A", (100 : ℚ))] [] [] [("A", true)] 25
      (by decide)).2.1 "A" 100 (by decide) (by decide) (by norm_num [getD, vlookup])
  simpa [getD, vlookup] using h

/-- C1 counterexample: symbol "B" is currently held at market value 500
(well above the dust threshold 25) but has no target; the claim demands a
sell order for it, yet the engine emits only the order for the targeted
symbol "A" and nothing for "B". -/
theorem c1_untargeted_holding_not_sold :
    build_orders [("A", (100 : ℚ))] [("B", 500)] [] [("A", true), ("B", true)] 25 =
      [⟨"A", Side.buy, Amt.notional 100⟩] ∧
    (25 : ℚ) ≤ |(0 : ℚ) - getD [("B", (500 : ℚ))] "B" 0| := by
  constructor
  · simp [build_orders, getD, vlookup, pxOf]
    norm_num
  · simp [getD, vlookup]
    norm_num

/-- C5 counterexample: a non-fractionable symbol with no known price (the
price map is empty) and delta 105 over threshold 25 — the engine falls back
to price `1.0` and emits a whole-share order for 105 shares, instead of
silently skipping the unpriced delta as the claim demands. -/
theorem c5_unpriced_symbol_gets_order :
    vlookup ([] : List (String × ℚ)) "A" = none ∧
    build_orders [("A", (105 : ℚ))] [] [] [("A", false)] 25 =
      [⟨"A", Side.buy, Amt.qty 105⟩] := by
  constructor
  · rfl
  · simp [build_orders, getD, vlookup, pxOf, qtrunc]
    norm_num

/-- C5 (amended): for a non-fractionable target entry whose delta clears the
dust threshold, the emitted quantity is the truncation of `|delta| / price`
(whole shares), the order is dropped when that quantity is 0, and a symbol
with a missing (or zero) last price uses the fallback price `1.0` — so an
unpriced delta of at least one dollar still produces an order of
`⌊|delta|⌋` shares (trader.py:216-219). -/
theorem build_orders_nonfractionable_qty (targets positions last_px : List (String × ℚ))
    (fr : List (String × Bool)) (minN : ℚ) (s : String) (tgt : ℚ)
    (hnd : (targets.map Prod.fst).Nodup)
    (hlk : vlookup targets s = some tgt)
    (hfr : getD fr s false = false)
    (hmin : minN ≤ |tgt - getD positions s 0|) :
    (0 < qtrunc (|tgt - getD positions s 0| / pxOf last_px s) →
      (⟨s, if 0 < tgt - getD positions s 0 then Side.buy else Side.sell,
        Amt.qty (qtrunc (|tgt - getD positions s 0| / pxOf last_px s))⟩ : Order) ∈
        build_orders targets positions last_px fr minN) ∧
    (qtrunc (|tgt - getD positions s 0| / pxOf last_px s) ≤ 0 →
      ∀ o ∈ build_orders targets positions last_px fr minN, o.sym ≠ s) := by
  induction targets with
  | nil => simp [vlookup] at hlk
  | cons hd rest ih =>
    obtain ⟨k, v⟩ := hd
    have hnd2 := hnd
    rw [List.map_cons, List.nodup_cons] at hnd2
    by_cases hks : k = s
    · subst hks
      rw [vlookup_cons_self] at hlk
      obtain rfl : v = tgt := by simpa using hlk
      constructor
      · intro hq
        rw [build_orders_cons]
        rw [if_neg (not_lt.mpr hmin)]
        rw [if_neg (by simp [hfr]), if_pos hq]
        exact List.mem_cons_self _ _
      · intro hq o ho heq
        rw [build_orders_cons] at ho
        rw [if_neg (not_lt.mpr hmin)] at ho
        rw [if_neg (by simp [hfr]), if_neg (not_lt.mpr hq)] at ho
        have := build_orders_sym_subset _ _ _ _ _ o ho
        rw [heq] at this
        exact hnd2.1 this
    · rw [vlookup_cons_ne hks] at hlk
      have hrec := ih hnd2.2 hlk
      constructor
      · intro hq
        have hmem := hrec.1 hq
        rw [build_orders_cons]
        split
        · exact hmem
        · split
          · exact List.mem_cons_of_mem _ hmem
          · split
            · exact List.mem_cons_of_mem _ hmem
            · exact hmem
      · intro hq o ho
        have hnos := hrec.2 hq
        rw [build_orders_cons] at ho
        split at ho
        · exact hnos o ho
        · split at ho
          · rcases List.mem_cons.mp ho with h | h
            · rw [h]; exact hks
            · exact hnos o h
          · split at ho
            · rcases List.mem_cons.mp ho with h | h
              · rw [h]; exact hks
              · exact hnos o h
            · exact hnos o ho

/-- Witness for `build_orders_nonfractionable_qty`: a $105 delta at price $50
for a non-fractionable symbol yields quantity 2 (floor, not 3). -/
theorem build_orders_nonfractionable_qty_witness :
    (⟨"A", Side.buy, Amt.qty 2⟩ : Order) ∈
      build_orders [("A", (105 : ℚ))] [] [("A", 50)] [("A", false)] 25 := by
  have h := (build_orders_nonfractionable_qty [("A", (105 : ℚ))] [] [("A", 50)]
      [("A", false)] 25 "A" 105 (by simp) rfl (by simp [getD, vlookup])
      (by simp [getD, vlookup]; norm_num)).1
  have hq : qtrunc ((105 : ℚ) / 50) = 2 := by
    rw [qtrunc, if_pos (by norm_num)]
    norm_num
  have h2 := h (by simp [getD, vlookup, pxOf, hq])
  simpa [getD, vlookup, pxOf, hq] using h2

/-- `cur_invested = sum(positions[s]["market_value"] for s in positions)`
(trader.py:177). -/
def cur_invested (positions : List (String × ℚ)) : ℚ :=
  sumV positions

/-- `est_turnover`: sum of `|tgt − cur|` over the union of position and
target symbols (trader.py:180-184). -/
def est_turnover (targets positions : List (String × ℚ)) : ℚ :=
  (((positions.map Prod.fst) ++ (targets.map Prod.fst)).dedup.map
    (fun s => |getD targets s 0 - getD positions s 0|)).sum

/-- Terminal outcome of the diff phase of a cycle: either the turnover gate
fires (`insert_log("SKIP", "turnover_limit", ...)` and return, trader.py:188-191)
or the order list is built. -/
inductive CycleOutcome
  | skippedTurnover
  | built (orders : List Order)
deriving DecidableEq, Repr

/-- The turnover gate followed by order building (trader.py:179-219).
The gate is only consulted when `cur_invested > MIN_ORDER_NOTIONAL * 2`
(trader.py:186, "skip gate if building from scratch"); inside it, the cycle
is aborted iff `est_turnover / cur_invested > TURNOVER_LIMIT` strictly. -/
def turnover_gate_and_orders (targets positions last_px : List (String × ℚ))
    (fr : List (String × Bool)) (minN limit : ℚ) : CycleOutcome :=
  if minN * 2 < cur_invested positions ∧ 0 < cur_invested positions ∧
      limit < est_turnover targets positions / cur_invested positions then
    CycleOutcome.skippedTurnover
  else
    CycleOutcome.built (build_orders targets positions last_px fr minN)

/-- C2 counterexample: with positions worth 8, a dust threshold of 5 and a
25% turnover limit, the estimated turnover ratio is 48/8 = 6, far above the
limit — yet the cycle is NOT aborted (8 ≤ 2·5 disables the gate) and a
non-empty order list is built, contradicting the claim that a ratio
strictly above the limit always aborts the cycle. -/
theorem c2_gate_skipped_small_portfolio :
    (1/4 : ℚ) < est_turnover [("B", 40)] [("A", 8)] / cur_invested [("A", 8)] ∧
    turnover_gate_and_orders [("B", 40)] [("A", 8)] [] [("B", true)] 5 (1/4) =
      CycleOutcome.built [⟨"B", Side.buy, Amt.notional 40⟩] := by
  constructor
  · simp [est_turnover, cur_invested, sumV, getD, vlookup]
    norm_num
  · rw [turnover_gate_and_orders]
    rw [if_neg (by simp [cur_invested, sumV]; norm_num)]
    simp [build_orders, getD, vlookup]
    norm_num

/-- C2 (amended): whenever the current invested value exceeds twice the
minimum order notional (the gate is otherwise skipped as "building from
scratch"), the cycle aborts with zero orders iff the estimated turnover
ratio strictly exceeds the limit; at a ratio exactly equal to the limit the
cycle proceeds to order building.  The gate is all-or-nothing per cycle. -/
theorem turnover_gate_spec (targets positions last_px : List (String × ℚ))
    (fr : List (String × Bool)) (minN limit : ℚ)
    (hmin : 0 ≤ minN) (hgate : minN * 2 < cur_invested positions) :
    (limit < est_turnover targets positions / cur_invested positions →
      turnover_gate_and_orders targets positions last_px fr minN limit =
        CycleOutcome.skippedTurnover) ∧
    (est_turnover targets positions / cur_invested positions ≤ limit →
      turnover_gate_and_orders targets positions last_px fr minN limit =
        CycleOutcome.built (build_orders targets positions last_px fr minN)) := by
  have hpos : 0 < cur_invested positions := lt_of_le_of_lt (by linarith) hgate
  constructor
  · intro hratio
    rw [turnover_gate_and_orders, if_pos ⟨hgate, hpos, hratio⟩]
  · intro hratio
    rw [turnover_gate_and_orders, if_neg (by rintro ⟨-, -, h⟩; exact absurd hratio (not_le.mpr h))]

/-- Witness for `turnover_gate_spec`, the spec's own numbers: invested
10,000, turnover 3,000, limit 25% aborts; turnover 2,500 (ratio exactly
25%) proceeds. -/
theorem turnover_gate_spec_witness :
    turnover_gate_and_orders [("A", 13000)] [("A", 10000)] [] [("A", true)] 25 (1/4) =
      CycleOutcome.skippedTurnover ∧
    turnover_gate_and_orders [("A", 12500)] [("A", 10000)] [] [("A", true)] 25 (1/4) =
      CycleOutcome.built [⟨"A", Side.buy, Amt.notional 2500⟩] := by
  constructor
  · refine (turnover_gate_spec [("A", 13000)] [("A", 10000)] [] [("A", true)] 25 (1/4)
      (by norm_num) (by simp [cur_invested, sumV]; norm_num)).1 ?_
    simp [est_turnover, cur_invested, sumV, getD, vlookup]
    norm_num
  · have h := (turnover_gate_spec [("A", 12500)] [("A", 10000)] [] [("A", true)] 25 (1/4)
      (by norm_num) (by simp [cur_invested, sumV]; norm_num)).2 (by
        simp [est_turnover, cur_invested, sumV, getD, vlookup]
        norm_num)
    rw [h]
    simp [build_orders, getD, vlookup]
    norm_num

lemma sumV_cons (p : String × ℚ) (m : List (String × ℚ)) :
    sumV (p :: m) = p.2 + sumV m := by
  simp [sumV]

lemma sumV_map_le (m : List (String × ℚ)) (f g : ℚ → ℚ) (h : ∀ x, f x ≤ g x) :
    sumV (m.map fun q => (q.1, f q.2)) ≤ sumV (m.map fun q => (q.1, g q.2)) := by
  induction m with
  | nil => simp [sumV]
  | cons hd tl ih =>
    simp only [List.map_cons, sumV_cons]
    exact add_le_add (h hd.2) ih

lemma sumV_map_div (m : List (String × ℚ)) (s : ℚ) :
    sumV (m.map fun q => (q.1, q.2 / s)) = sumV m / s := by
  induction m with
  | nil => simp [sumV]
  | cons hd tl ih =>
    simp only [List.map_cons, sumV_cons, ih]
    rw [add_div]

/-- The raw affinity dict of `risk_weights_for` (strategy.py:52-59):
`raw[sym] = max(score, 0) / (vol if vol > 0 else 0.0001)` for each pick
present in the feature table.  `feats` maps symbol to (score, vol20_annual). -/
def raw_affinities (picks : List String) (feats : List (String × (ℚ × ℚ))) :
    List (String × ℚ) :=
  picks.foldl (fun acc sym =>
    match vlookup feats sym with
    | none => acc
    | some sv => insertA acc sym (max sv.1 0 / (if 0 < sv.2 then sv.2 else 1/10000))) []

/-- Stable insertion for the descending sort of
`sorted(w.items(), key=lambda kv: kv[1], reverse=True)` (strategy.py:70). -/
def insD (x : String × ℚ) : List (String × ℚ) → List (String × ℚ)
  | [] => [x]
  | y :: ys => if x.2 < y.2 then y :: insD x ys else x :: y :: ys

/-- Stable descending-by-value sort (Python `sorted` is stable). -/
def sortDescW : List (String × ℚ) → List (String × ℚ)
  | [] => []
  | x :: xs => insD x (sortDescW xs)

/-- The greedy capped water-fill loop of `risk_weights_for`
(strategy.py:68-75): `a = min(v, max_weight, residual)`, assign, subtract,
break once the residual drops to `1e-6` or below. -/
def waterfill_alloc : List (String × ℚ) → ℚ → ℚ → List (String × ℚ)
  | [], _, _ => []
  | (k, v) :: rest, mw, residual =>
    let a := min v (min mw residual)
    (k, a) :: (if residual - a ≤ 1/1000000 then [] else waterfill_alloc rest mw (residual - a))

/-- The capped normalized weights `w = {k: min(max_weight, v/s)}` of
`risk_weights_for` (strategy.py:65). -/
def capped_weights (picks : List String) (feats : List (String × (ℚ × ℚ)))
    (max_weight : ℚ) : List (String × ℚ) :=
  (raw_affinities picks feats).map
    (fun q => (q.1, min max_weight (q.2 / sumV (raw_affinities picks feats))))

/-- `risk_weights_for(picks, feats, max_weight)` (strategy.py:50-77):
normalize raw affinities, cap at `max_weight`, and if the capped sum
exceeds 1 run the greedy water-fill. -/
def risk_weights_for (picks : List String) (feats : List (String × (ℚ × ℚ)))
    (max_weight : ℚ) : List (String × ℚ) :=
  if raw_affinities picks feats = [] then []
  else if sumV (raw_affinities picks feats) = 0 then []
  else if 1 < sumV (capped_weights picks feats max_weight) then
    waterfill_alloc (sortDescW (capped_weights picks feats max_weight)) max_weight 1
  else capped_weights picks feats max_weight

/-- The capped normalized weights never sum to more than 1: normalization
makes the shares sum to exactly `s/s = 1` and `min max_weight` only
decreases each one. -/
lemma capped_weights_sum_le_one (picks : List String) (feats : List (String × (ℚ × ℚ)))
    (mw : ℚ) (h2 : sumV (raw_affinities picks feats) ≠ 0) :
    sumV (capped_weights picks feats mw) ≤ 1 := by
  rw [capped_weights]
  calc sumV ((raw_affinities picks feats).map
      (fun q => (q.1, min mw (q.2 / sumV (raw_affinities picks feats)))))
      ≤ sumV ((raw_affinities picks feats).map
        (fun q => (q.1, q.2 / sumV (raw_affinities picks feats)))) :=
        sumV_map_le (raw_affinities picks feats)
          (fun x => min mw (x / sumV (raw_affinities picks feats)))
          (fun x => x / sumV (raw_affinities picks feats))
          (fun x => min_le_right _ _)
    _ = sumV (raw_affinities picks feats) / sumV (raw_affinities picks feats) :=
        sumV_map_div _ _
    _ = 1 := div_self h2

/-- C4 (amended): the Risk Allocator's output weights always sum to at
most 1.  Because the raw affinities are normalized to sum to exactly 1 and
capping at `max_weight` only decreases each share, the capped sum never
exceeds 1, so the greedy water-fill branch (strategy.py:67-76) never runs;
in particular three symbols with raw affinities 0.5/0.3/0.3 (normalized
shares 5/11, 3/11, 3/11) and maxWeight 0.4 yield {A: 0.4, B: 3/11, C: 3/11},
not {A: 0.4, B: 0.3, C: 0.3}. -/
theorem risk_weights_sum_le_one :
    (∀ (picks : List String) (feats : List (String × (ℚ × ℚ))) (mw : ℚ),
      sumV (risk_weights_for picks feats mw) ≤ 1) ∧
    risk_weights_for ["A", "B", "C"]
        [("A", (1/2, 1)), ("B", (3/10, 1)), ("C", (3/10, 1))] (2/5) =
      [("A", 2/5), ("B", 3/11), ("C", 3/11)] := by
  constructor
  · intro picks feats mw
    rw [risk_weights_for]
    split_ifs with h1 h2 h3
    · simp [sumV]
    · simp [sumV]
    · exact absurd h3 (not_lt.mpr (capped_weights_sum_le_one _ _ _ h2))
    · exact capped_weights_sum_le_one _ _ _ h2
  · have hraw : raw_affinities ["A", "B", "C"]
        [("A", (1/2, 1)), ("B", (3/10, 1)), ("C", (3/10, 1))] =
        [("A", 1/2), ("B", 3/10), ("C", 3/10)] := by
      simp [raw_affinities, vlookup, insertA]
      norm_num
    have hsum : sumV ([("A", (1:ℚ)/2), ("B", 3/10), ("C", 3/10)]) = 11/10 := by
      simp [sumV]
      norm_num
    have hcap : capped_weights ["A", "B", "C"]
        [("A", (1/2, 1)), ("B", (3/10, 1)), ("C", (3/10, 1))] (2/5) =
        [("A", 2/5), ("B", 3/11), ("C", 3/11)] := by
      rw [capped_weights, hraw, hsum]
      simp [min_def]
      norm_num
    rw [risk_weights_for, hraw, hcap]
    rw [if_neg (by simp), if_neg (by rw [hsum]; norm_num)]
    rw [if_neg (by simp [sumV]; norm_num)]

/-- C4 counterexample: at the spec's own input (raw affinities 0.5/0.3/0.3,
maxWeight 0.4) the allocator returns weight 3/11 for "B", not the claimed
0.3. -/
theorem c4_waterfill_example_false :
    vlookup (risk_weights_for ["A", "B", "C"]
        [("A", (1/2, 1)), ("B", (3/10, 1)), ("C", (3/10, 1))] (2/5)) "B" =
      some (3/11) ∧ ((3 : ℚ)/11) ≠ 3/10 := by
  constructor
  · rw [risk_weights_sum_le_one.2]
    simp [vlookup]
  · norm_num

/-- Remove every binding of key `k` (proof helper, not from the source). -/
def eraseK (m : List (String × ℚ)) (k : String) : List (String × ℚ) :=
  match m with
  | [] => []
  | (k₁, v) :: rest => if k₁ = k then eraseK rest k else (k₁, v) :: eraseK rest k

lemma eraseK_sublist (m : List (String × ℚ)) (k : String) : (eraseK m k).Sublist m := by
  induction m with
  | nil => simp [eraseK]
  | cons hd rest ih =>
    obtain ⟨k₁, v⟩ := hd
    rw [eraseK]
    by_cases h1 : k₁ = k
    · rw [if_pos h1]
      exact ih.trans (List.sublist_cons_self _ _)
    · rw [if_neg h1]
      exact ih.cons₂ _

lemma vlookup_eraseK_ne (m : List (String × ℚ)) {k k₂ : String} (h : k₂ ≠ k) :
    vlookup (eraseK m k) k₂ = vlookup m k₂ := by
  induction m with
  | nil => rfl
  | cons hd rest ih =>
    obtain ⟨k₁, v⟩ := hd
    rw [eraseK]
    by_cases h1 : k₁ = k
    · rw [if_pos h1, ih, vlookup_cons_ne (h1.symm ▸ Ne.symm h)]
    · rw [if_neg h1]
      by_cases h2 : k₁ = k₂
      · subst h2
        rw [vlookup_cons_self, vlookup_cons_self]
      · rw [vlookup_cons_ne h2, vlookup_cons_ne h2, ih]

lemma eraseK_of_not_mem (m : List (String × ℚ)) (k : String)
    (h : k ∉ m.map Prod.fst) : eraseK m k = m := by
  induction m with
  | nil => rfl
  | cons hd rest ih =>
    obtain ⟨k₁, v⟩ := hd
    rw [List.map_cons] at h
    have hne : k₁ ≠ k := by
      rintro rfl
      exact h (List.mem_cons_self _ _)
    rw [eraseK, if_neg hne, ih (fun hm => h (List.mem_cons_of_mem _ hm))]

lemma sumV_eraseK (m : List (String × ℚ)) (k : String) (b : ℚ)
    (hnd : (m.map Prod.fst).Nodup) (hlk : vlookup m k = some b) :
    sumV m = b + sumV (eraseK m k) := by
  induction m with
  | nil => simp [vlookup] at hlk
  | cons hd rest ih =>
    obtain ⟨k₁, v⟩ := hd
    have hnd2 := hnd
    rw [List.map_cons, List.nodup_cons] at hnd2
    by_cases h1 : k₁ = k
    · subst h1
      rw [vlookup_cons_self] at hlk
      have hvb : v = b := by simpa using hlk
      rw [eraseK, if_pos rfl, eraseK_of_not_mem rest k₁ hnd2.1, sumV_cons, hvb]
    · rw [vlookup_cons_ne h1] at hlk
      rw [eraseK, if_neg h1, sumV_cons, sumV_cons, ih hnd2.2 hlk]
      ring

lemma sumV_nonneg (m : List (String × ℚ)) (h : ∀ p ∈ m, 0 ≤ p.2) : 0 ≤ sumV m := by
  induction m with
  | nil => simp [sumV]
  | cons hd rest ih =>
    rw [sumV_cons]
    have h1 := h hd (List.mem_cons_self _ _)
    have h2 := ih (fun p hp => h p (List.mem_cons_of_mem _ hp))
    linarith

lemma vlookup_mem {β : Type} (m : List (String × β)) (k : String) (b : β)
    (h : vlookup m k = some b) : (k, b) ∈ m := by
  induction m with
  | nil => simp [vlookup] at h
  | cons hd rest ih =>
    obtain ⟨k₁, v⟩ := hd
    by_cases h1 : k₁ = k
    · subst h1
      rw [vlookup_cons_self] at h
      have : v = b := by simpa using h
      exact this ▸ List.mem_cons_self _ _
    · rw [vlookup_cons_ne h1] at h
      exact List.mem_cons_of_mem _ (ih h)

lemma eraseK_keys_nodup (m : List (String × ℚ)) (k : String)
    (hnd : (m.map Prod.fst).Nodup) : ((eraseK m k).map Prod.fst).Nodup :=
  hnd.sublist ((eraseK_sublist m k).map Prod.fst)

/-- The pre-normalization blend dict of `main` (trader.py:146-150): for each
symbol in the union of the AI and risk keys,
`blend[sym] = min(MAX_WEIGHT, max(0.0, AIW*ai_w.get(sym,0) + (1-AIW)*risk_w.get(sym,0)))`. -/
def blend_base (ai_w risk_w : List (String × ℚ)) (aiw mw : ℚ) : List (String × ℚ) :=
  ((ai_w.map Prod.fst ++ risk_w.map Prod.fst).dedup).map
    (fun s => (s, min mw (max 0 (aiw * getD ai_w s 0 + (1 - aiw) * getD risk_w s 0))))

/-- The blended weights after the proportional shrink (trader.py:151-153):
`if ssum > 1.0 and ssum > 0: blend[k] /= ssum`. -/
def blend_weights (ai_w risk_w : List (String × ℚ)) (aiw mw : ℚ) : List (String × ℚ) :=
  if 1 < sumV (blend_base ai_w risk_w aiw mw) ∧ 0 < sumV (blend_base ai_w risk_w aiw mw) then
    (blend_base ai_w risk_w aiw mw).map
      (fun q => (q.1, q.2 / sumV (blend_base ai_w risk_w aiw mw)))
  else blend_base ai_w risk_w aiw mw

/-- The retained picks (trader.py:154-158): keep each pick whose symbol is in
the blend dict with a strictly positive blended weight, re-weighted to the
blend value. -/
def retained_picks (picks blend : List (String × ℚ)) : List (String × ℚ) :=
  picks.filterMap (fun p =>
    match vlookup blend p.1 with
    | some b => if 0 < b then some (p.1, b) else none
    | none => none)

lemma retained_picks_cons_none (k : String) (w : ℚ) (rest blend : List (String × ℚ))
    (h : vlookup blend k = none) :
    retained_picks ((k, w) :: rest) blend = retained_picks rest blend := by
  simp [retained_picks, List.filterMap_cons, h]

lemma retained_picks_cons_pos (k : String) (w b : ℚ) (rest blend : List (String × ℚ))
    (h : vlookup blend k = some b) (hb : 0 < b) :
    retained_picks ((k, w) :: rest) blend = (k, b) :: retained_picks rest blend := by
  simp [retained_picks, List.filterMap_cons, h, hb]

lemma retained_picks_cons_nonpos (k : String) (w b : ℚ) (rest blend : List (String × ℚ))
    (h : vlookup blend k = some b) (hb : ¬0 < b) :
    retained_picks ((k, w) :: rest) blend = retained_picks rest blend := by
  simp [retained_picks, List.filterMap_cons, h, hb]

lemma retained_picks_eraseK (picks blend : List (String × ℚ)) (k : String)
    (h : k ∉ picks.map Prod.fst) :
    retained_picks picks (eraseK blend k) = retained_picks picks blend := by
  induction picks with
  | nil => rfl
  | cons hd rest ih =>
    obtain ⟨k₁, w⟩ := hd
    rw [List.map_cons] at h
    have hne : k₁ ≠ k := by
      rintro rfl
      exact h (List.mem_cons_self _ _)
    have hlkeq : vlookup (eraseK blend k) k₁ = vlookup blend k₁ := vlookup_eraseK_ne blend hne
    have ihh := ih (fun hm => h (List.mem_cons_of_mem _ hm))
    rcases hlk : vlookup blend k₁ with _ | b
    · rw [retained_picks_cons_none k₁ w rest _ (hlkeq.trans hlk),
        retained_picks_cons_none k₁ w rest _ hlk, ihh]
    · by_cases hb : 0 < b
      · rw [retained_picks_cons_pos k₁ w b rest _ (hlkeq.trans hlk) hb,
          retained_picks_cons_pos k₁ w b rest _ hlk hb, ihh]
      · rw [retained_picks_cons_nonpos k₁ w b rest _ (hlkeq.trans hlk) hb,
          retained_picks_cons_nonpos k₁ w b rest _ hlk hb, ihh]

/-- Every retained pick's weight is strictly positive and equals its blend
dict value. -/
lemma retained_picks_mem (picks blend : List (String × ℚ)) :
    ∀ p ∈ retained_picks picks blend, 0 < p.2 ∧ vlookup blend p.1 = some p.2 := by
  induction picks with
  | nil => intro p hp; simp [retained_picks] at hp
  | cons hd rest ih =>
    obtain ⟨k, w⟩ := hd
    intro p hp
    rcases hlk : vlookup blend k with _ | b
    · rw [retained_picks_cons_none k w rest _ hlk] at hp
      exact ih p hp
    · by_cases hb : 0 < b
      · rw [retained_picks_cons_pos k w b rest _ hlk hb] at hp
        rcases List.mem_cons.mp hp with h | h
        · subst h
          exact ⟨hb, hlk⟩
        · exact ih p h
      · rw [retained_picks_cons_nonpos k w b rest _ hlk hb] at hp
        exact ih p hp

/-- Retained picks with distinct symbols sum to at most the total of a
nonnegative blend dict with distinct keys. -/
lemma retained_sum_le (picks : List (String × ℚ)) :
    ∀ (m : List (String × ℚ)), (picks.map Prod.fst).Nodup →
      (m.map Prod.fst).Nodup → (∀ p ∈ m, 0 ≤ p.2) →
      sumV (retained_picks picks m) ≤ sumV m := by
  induction picks with
  | nil => intro m _ _ hpos; simpa [retained_picks, sumV] using sumV_nonneg m hpos
  | cons hd rest ih =>
    intro m hnd hmnd hpos
    obtain ⟨k, w⟩ := hd
    have hnd2 := hnd
    rw [List.map_cons, List.nodup_cons] at hnd2
    rcases hlk : vlookup m k with _ | b
    · rw [retained_picks_cons_none k w rest m hlk]
      exact ih m hnd2.2 hmnd hpos
    · by_cases hb : 0 < b
      · rw [retained_picks_cons_pos k w b rest m hlk hb]
        rw [show retained_picks rest m = retained_picks rest (eraseK m k) from
          (retained_picks_eraseK rest m k hnd2.1).symm]
        rw [sumV_cons]
        have hrec := ih (eraseK m k) hnd2.2 (eraseK_keys_nodup m k hmnd)
          (fun p hp => hpos p ((eraseK_sublist m k).mem hp))
        have hsum := sumV_eraseK m k b hmnd hlk
        simp only at hrec ⊢
        linarith
      · rw [retained_picks_cons_nonpos k w b rest m hlk hb]
        exact ih m hnd2.2 hmnd hpos

lemma keys_of_pair_map (l : List String) (f : String → ℚ) :
    ((l.map (fun s => (s, f s))).map Prod.fst) = l := by
  induction l with
  | nil => rfl
  | cons hd tl ih => simp [ih]

lemma keys_of_value_map (m : List (String × ℚ)) (g : String × ℚ → ℚ) :
    ((m.map (fun q => (q.1, g q))).map Prod.fst) = m.map Prod.fst := by
  induction m with
  | nil => rfl
  | cons hd tl ih => simp [ih]

/-- Every entry of the blend dict is at most `mw` once positive. -/
lemma blend_weights_le_mw (ai_w risk_w : List (String × ℚ)) (aiw mw : ℚ) :
    ∀ p ∈ blend_weights ai_w risk_w aiw mw, 0 < p.2 → p.2 ≤ mw := by
  intro p hp hpos
  rw [blend_weights] at hp
  split at hp
  · rename_i hcond
    obtain ⟨q, hq, hpq⟩ := List.mem_map.mp hp
    obtain ⟨s, _, hqs⟩ := List.mem_map.mp hq
    have hq2 : q.2 ≤ mw := by
      rw [← hqs]
      exact min_le_left _ _
    have hp2 : p.2 = q.2 / sumV (blend_base ai_w risk_w aiw mw) := by
      rw [← hpq]
    have hq2pos : 0 < q.2 := by
      by_contra hneg
      push_neg at hneg
      have : p.2 ≤ 0 := by
        rw [hp2]
        exact div_nonpos_of_nonpos_of_nonneg hneg (le_of_lt hcond.2)
      linarith
    calc p.2 = q.2 / sumV (blend_base ai_w risk_w aiw mw) := hp2
      _ ≤ q.2 := div_le_self (le_of_lt hq2pos) (le_of_lt hcond.1)
      _ ≤ mw := hq2
  · obtain ⟨s, _, hqs⟩ := List.mem_map.mp hp
    rw [← hqs]
    exact min_le_left _ _

/-- With a nonnegative cap, every blend entry is nonnegative. -/
lemma blend_weights_nonneg (ai_w risk_w : List (String × ℚ)) (aiw mw : ℚ)
    (hmw : 0 ≤ mw) : ∀ p ∈ blend_weights ai_w risk_w aiw mw, 0 ≤ p.2 := by
  have hbase : ∀ p ∈ blend_base ai_w risk_w aiw mw, 0 ≤ p.2 := by
    intro p hp
    obtain ⟨s, _, hqs⟩ := List.mem_map.mp hp
    rw [← hqs]
    exact le_min hmw (le_max_left _ _)
  intro p hp
  rw [blend_weights] at hp
  split at hp
  · rename_i hcond
    obtain ⟨q, hq, hpq⟩ := List.mem_map.mp hp
    rw [← hpq]
    exact div_nonneg (hbase q hq) (le_of_lt hcond.2)
  · exact hbase p hp

/-- The blend dict keys are distinct (they come from `dedup`). -/
lemma blend_weights_keys_nodup (ai_w risk_w : List (String × ℚ)) (aiw mw : ℚ) :
    ((blend_weights ai_w risk_w aiw mw).map Prod.fst).Nodup := by
  have hbase : ((blend_base ai_w risk_w aiw mw).map Prod.fst).Nodup := by
    rw [blend_base, keys_of_pair_map]
    exact (ai_w.map Prod.fst ++ risk_w.map Prod.fst).nodup_dedup
  rw [blend_weights]
  split
  · rw [show (fun q : String × ℚ => (q.1, q.2 / sumV (blend_base ai_w risk_w aiw mw))) =
      (fun q : String × ℚ => (q.1, (fun p : String × ℚ => p.2 / sumV (blend_base ai_w risk_w aiw mw)) q)) from rfl]
    rw [keys_of_value_map]
    exact hbase
  · exact hbase

/-- With a nonnegative cap the blend dict sums to at most 1: either the
proportional shrink fires and the sum becomes exactly 1, or it did not
exceed 1 in the first place. -/
lemma blend_weights_sum_le_one (ai_w risk_w : List (String × ℚ)) (aiw mw : ℚ)
    (hmw : 0 ≤ mw) : sumV (blend_weights ai_w risk_w aiw mw) ≤ 1 := by
  have hbase : ∀ p ∈ blend_base ai_w risk_w aiw mw, 0 ≤ p.2 := by
    intro p hp
    obtain ⟨s, _, hqs⟩ := List.mem_map.mp hp
    rw [← hqs]
    exact le_min hmw (le_max_left _ _)
  rw [blend_weights]
  split
  · rename_i hcond
    rw [sumV_map_div, div_self (ne_of_gt hcond.2)]
  · rename_i hcond
    have hnn : 0 ≤ sumV (blend_base ai_w risk_w aiw mw) := sumV_nonneg _ hbase
    rcases lt_or_le 1 (sumV (blend_base ai_w risk_w aiw mw)) with h1 | h1
    · exact absurd ⟨h1, lt_of_lt_of_le one_pos (le_of_lt h1)⟩ hcond
    · exact h1

/-- C3: for every blended-weight set produced by the Weight Blender
(trader.py:146-158) — any AI weights, any risk weights, any blend ratio,
any cap — the retained picks' weights sum to at most 1 (hence at most
1 + ε) and every retained weight is strictly positive and at most the cap.
The AI weight dict is the picks list itself (`ai_w = {p.symbol: p.weight}`),
assumed to have distinct symbols as a dict does. -/
theorem blend_weights_bounded (picks risk_w : List (String × ℚ)) (aiw mw : ℚ)
    (hnd : (picks.map Prod.fst).Nodup) :
    sumV (retained_picks picks (blend_weights picks risk_w aiw mw)) ≤ 1 ∧
    ∀ p ∈ retained_picks picks (blend_weights picks risk_w aiw mw),
      0 < p.2 ∧ p.2 ≤ mw := by
  constructor
  · by_cases hmw : 0 ≤ mw
    · calc sumV (retained_picks picks (blend_weights picks risk_w aiw mw))
          ≤ sumV (blend_weights picks risk_w aiw mw) :=
            retained_sum_le picks _ hnd (blend_weights_keys_nodup _ _ _ _)
              (blend_weights_nonneg _ _ _ _ hmw)
        _ ≤ 1 := blend_weights_sum_le_one _ _ _ _ hmw
    · have hempty : retained_picks picks (blend_weights picks risk_w aiw mw) = [] := by
        rw [List.eq_nil_iff_forall_not_mem]
        intro p hp
        have h1 := retained_picks_mem _ _ p hp
        have h2 := blend_weights_le_mw picks risk_w aiw mw (p.1, p.2)
          (vlookup_mem _ _ _ h1.2) h1.1
        push_neg at hmw
        simp only at h2
        linarith [h1.1]
      rw [hempty]
      norm_num [sumV]
  · intro p hp
    have h1 := retained_picks_mem _ _ p hp
    exact ⟨h1.1, blend_weights_le_mw picks risk_w aiw mw (p.1, p.2)
      (vlookup_mem _ _ _ h1.2) h1.1⟩

/-- Witness for `blend_weights_bounded` at a concrete input: one pick "A"
with AI weight 1/2, risk weight 1/2, blend ratio 1/2, cap 1/2. -/
theorem blend_weights_bounded_witness :
    sumV (retained_picks [("A", (1 : ℚ)/2)]
      (blend_weights [("A", (1 : ℚ)/2)] [("A", (1 : ℚ)/2)] (1/2) (1/2))) ≤ 1 :=
  (blend_weights_bounded [("A", (1 : ℚ)/2)] [("A", (1 : ℚ)/2)] (1/2) (1/2)
    (by simp)).1

/-- A pick of the external allocation proposal (llm_policy.py:7-10). -/
structure PickR where
  symbol : String
  weight : ℚ
  rationale : String
deriving DecidableEq, Repr

/-- The validated policy response (llm_policy.py:12-16); `picks` defaults to
empty, `confidence` to 0.5. -/
structure PolicyR where
  asof : String
  picks : List PickR
  notes : String
  confidence : ℚ
deriving DecidableEq, Repr

/-- The fallback constructed when `PolicyResponse.model_validate_json`
raises (llm_policy.py:83): empty picks, zero confidence, the error recorded
in the notes.  `now` stands for `datetime.utcnow().isoformat()`. -/
def fallback_response (now err : String) : PolicyR :=
  ⟨now, [], "ValidationError: " ++ err, 0⟩

/-- The weight post-processing of `choose_portfolio` (llm_policy.py:85-90):
proportionally renormalize when the total exceeds 1, then clamp every
weight into `[0, max_weight]`. -/
def postprocess_weights (maxW : ℚ) (r : PolicyR) : PolicyR :=
  let tw := (r.picks.map PickR.weight).sum
  let p1 := if 1 < tw ∧ 0 < tw then
      r.picks.map (fun p => { p with weight := p.weight / tw })
    else r.picks
  { r with picks := p1.map (fun p => { p with weight := min (max p.weight 0) maxW }) }

/-- `choose_portfolio`'s parse-and-recover step (llm_policy.py:75-92): the
external response text is parsed against the schema; on any validation
failure the fallback response is substituted instead of raising, and the
weight post-processing is applied to whichever response results.  The
parse itself (pydantic) is external; it is represented by an
`Except`-valued argument. -/
def choose_portfolio (maxW : ℚ) (now : String) (parsed : Except String PolicyR) : PolicyR :=
  postprocess_weights maxW
    (match parsed with
     | Except.ok r => r
     | Except.error e => fallback_response now e)

/-- C8: when the external allocation response is malformed (the schema
validation fails), `choose_portfolio` returns an empty proposal with
confidence 0.0 instead of raising — the cycle is never failed by a
proposal validation error (llm_policy.py:80-83). -/
theorem choose_portfolio_validation_fallback (maxW : ℚ) (now e : String) :
    (choose_portfolio maxW now (Except.error e)).picks = [] ∧
    (choose_portfolio maxW now (Except.error e)).confidence = 0 := by
  constructor
  · rfl
  · rfl

/-- Episode as read back by the memory summarizer (memory.py:113-123):
`asof` is an epoch-style timestamp used only for ordering, `whenStr` its
`"%Y-%m-%d %H:%M"` rendering, `tag` the window tag, and `picks` the stored
(symbol, weight) rows. -/
structure Episode where
  asof : ℤ
  whenStr : String
  tag : String
  picks : List (String × ℚ)
deriving DecidableEq, Repr

/-- Banker's rounding (round-half-even), as used by Python's `format(x, '.0%')`. -/
def round_half_even (q : ℚ) : ℤ :=
  if q - ⌊q⌋ < 1/2 then ⌊q⌋
  else if 1/2 < q - ⌊q⌋ then ⌊q⌋ + 1
  else if ⌊q⌋ % 2 = 0 then ⌊q⌋ else ⌊q⌋ + 1

/-- `f"{w:.0%}"`: percentage with zero decimals (memory.py:132). -/
def pct0 (w : ℚ) : String :=
  toString (round_half_even (w * 100)) ++ "%"

/-- One line of the memory context (memory.py:131-133):
`"<when> (<tag>): <sym:weight%>, ..."` with `"no positions"` when the
filtered picks render empty. -/
def episode_line (e : Episode) : String :=
  let ps := String.intercalate ", "
    ((e.picks.filter (fun p => p.1 ≠ "")).map (fun p => p.1 ++ ":" ++ pct0 p.2))
  e.whenStr ++ " (" ++ e.tag ++ "): " ++ (if ps = "" then "no positions" else ps)

/-- `build_memory_context` (memory.py:125-134).  Its input `eps` is the list
returned by `recent_episodes`, i.e. the N most recent episodes ordered
newest-first (`ORDER BY asof DESC`, memory.py:115); the summarizer iterates
`eps[::-1]`, i.e. reversed. -/
def build_memory_context (eps : List Episode) : String :=
  if eps = [] then "No prior episodes."
  else "Recent episodes â†’ " ++ String.intercalate " | " ((eps.reverse).map episode_line)

/-- C9: with zero episodes the summarizer returns the fixed "no prior
episodes" sentinel; otherwise it renders the episodes in reversed storage
order — so a newest-first storage read (timestamps pairwise decreasing)
is rendered oldest-to-newest (timestamps pairwise increasing). -/
theorem memory_context_spec :
    build_memory_context [] = "No prior episodes." ∧
    ∀ eps : List Episode, eps ≠ [] →
      build_memory_context eps =
        "Recent episodes â†’ " ++ String.intercalate " | " ((eps.reverse).map episode_line) ∧
      (List.Pairwise (fun a b : Episode => b.asof ≤ a.asof) eps →
        List.Pairwise (fun a b : Episode => a.asof ≤ b.asof) eps.reverse) := by
  constructor
  · rfl
  · intro eps hne
    constructor
    · rw [build_memory_context, if_neg hne]
    · intro hsorted
      rw [List.pairwise_reverse]
      exact hsorted

/-- Witness for `memory_context_spec`: two concrete episodes stored
newest-first render oldest-first. -/
theorem memory_context_spec_witness :
    build_memory_context
        [⟨2, "2024-01-02 10:00", "am", [("SPY", 1/2)]⟩,
         ⟨1, "2024-01-01 10:00", "am", []⟩] =
      "Recent episodes â†’ " ++ String.intercalate " | "
        (([⟨2, "2024-01-02 10:00", "am", [("SPY", 1/2)]⟩,
           ⟨1, "2024-01-01 10:00", "am", []⟩] : List Episode).reverse.map episode_line) :=
  (memory_context_spec.2
    [⟨2, "2024-01-02 10:00", "am", [("SPY", 1/2)]⟩,
     ⟨1, "2024-01-01 10:00", "am", []⟩] (by simp)).1

/-- `px.pct_change(n).iloc[-1]` (strategy.py:17-18,25): the trailing n-day
percent return `px[-1]/px[-1-n] - 1`, or undefined (pandas NaN) when fewer
than `n+1` observations exist.  A zero base price (which would give an IEEE
infinity in the source) is modelled as undefined as well; the theorems about
scored rows do not depend on that case. -/
def pct_change_last (n : ℕ) (px : List ℚ) : Option ℚ :=
  if h : n < px.length then
    if px.get ⟨px.length - 1 - n, by omega⟩ = 0 then none
    else some (px.get ⟨px.length - 1, by omega⟩ / px.get ⟨px.length - 1 - n, by omega⟩ - 1)
  else none

/-- `px.pct_change()` without its leading NaN: consecutive returns. -/
def pct_changes (px : List ℚ) : List ℚ :=
  List.zipWith (fun prev curr => curr / prev - 1) px px.tail

/-- The last `n` entries of a list (a trailing rolling window). -/
def last_n (n : ℕ) (l : List ℚ) : List ℚ :=
  l.drop (l.length - n)

/-- The arithmetic mean, for the moving averages `ma20`/`ma50`
(strategy.py:21-22). -/
def mean (l : List ℚ) : ℚ :=
  l.sum / (l.length : ℚ)

/-- Running maximum continuing from `m`. -/
def cummax_from (m : ℚ) : List ℚ → List ℚ
  | [] => []
  | x :: xs => max m x :: cummax_from (max m x) xs

/-- `px.cummax()` (strategy.py:80). -/
def cummax : List ℚ → List ℚ
  | [] => []
  | x :: xs => x :: cummax_from x xs

/-- `_max_drawdown` (strategy.py:79-82): `(px/px.cummax() - 1).min()`. -/
def max_drawdown (px : List ℚ) : ℚ :=
  match List.zipWith (fun p m => p / m - 1) px (cummax px) with
  | [] => 0
  | d :: ds => ds.foldl min d

/-- One row of the feature table (strategy.py:29-34). -/
structure FeatRow where
  symbol : String
  ret21 : ℚ
  ret63 : ℚ
  vol20_annual : ℚ
  maxdd : ℚ
  trend : ℚ
  last : ℚ
  ret126 : ℚ
  vol63_annual : ℚ
  qual126 : ℚ
  score : ℚ
deriving DecidableEq, Repr

/-- Assemble a feature row from the per-symbol metrics (strategy.py:27-34):
`qual = ret126/vol63` when the volatility is a nonzero number, else NaN;
the NaN fallbacks `ret126→0, vol63→0, qual126→0` are applied
(`float(x if x==x else 0.0)`), and the composite score is the fixed linear
combination of the resulting columns. -/
def mkFeatRow (sym : String) (r21 r63 vol20 mdd trend lastc : ℚ)
    (r126 v63 : Option ℚ) : FeatRow :=
  let qual : Option ℚ :=
    match v63 with
    | some v => if v ≠ 0 then
        (match r126 with
         | some r => some (r / v)
         | none => none)
      else none
    | none => none
  { symbol := sym, ret21 := r21, ret63 := r63, vol20_annual := vol20, maxdd := mdd,
    trend := trend, last := lastc, ret126 := r126.getD 0, vol63_annual := v63.getD 0,
    qual126 := qual.getD 0,
    score := 0.28 * r63 + 0.28 * r21 + 0.28 * trend + 0.16 * qual.getD 0
      - 0.12 * vol20 - 0.08 * |mdd| }

/-- The per-symbol body of the `compute_features` loop (strategy.py:12-30).

`std` abstracts `lambda xs: xs.std() * sqrt(252)` — the sample standard
deviation of a return window scaled by the annualization constant — whose
value is irrational and enters every claim only through the opaque
`vol20_annual`/`vol63_annual` columns.  A symbol with fewer than 60 closes
is skipped (strategy.py:15-16); a row whose `ret21`/`ret63` is undefined
(NaN, e.g. fewer than 64 closes for `ret63`) is dropped by the
`out.dropna()` at strategy.py:35, hence `none` here.  `vol20` is defined
whenever 60 ≤ len (window of the last 20 returns); `vol63` needs 64 ≤ len
(at exactly 63 closes the 63-wide window includes the leading NaN of
`pct_change()`, strategy.py:26); `ret126` needs 127 ≤ len (the
`len(px) >= 126` guard at strategy.py:25 still yields NaN at exactly 126). -/
def featureRow (std : List ℚ → ℚ) (sym : String) (px : List ℚ) : Option FeatRow :=
  if hlen : px.length < 60 then none
  else
    match pct_change_last 21 px, pct_change_last 63 px with
    | some r21, some r63 =>
      some (mkFeatRow sym r21 r63
        (std (last_n 20 (pct_changes px)))
        (max_drawdown px)
        (if mean (last_n 50 px) ≠ 0 then
          (mean (last_n 20 px) - mean (last_n 50 px)) / mean (last_n 50 px)
        else 0)
        (px.get ⟨px.length - 1, by omega⟩)
        (if 126 ≤ px.length then pct_change_last 126 px else none)
        (if 63 ≤ px.length then
          (if 64 ≤ px.length then some (std (last_n 63 (pct_changes px))) else none)
        else none))
    | _, _ => none

/-- Descending-score order of the output table (strategy.py:35,
`sort_values("score", ascending=False)`). -/
abbrev scoreGe (a b : FeatRow) : Prop := b.score ≤ a.score

instance : IsTotal FeatRow scoreGe := ⟨fun a b => le_total b.score a.score⟩

instance : IsTrans FeatRow scoreGe := ⟨fun _ _ _ h1 h2 => le_trans h2 h1⟩

/-- The feature table: one row per eligible symbol, sorted by score
descending (strategy.py:10-36). -/
def feature_table (std : List ℚ → ℚ) (rows : List (String × List ℚ)) : List FeatRow :=
  List.insertionSort scoreGe (rows.filterMap (fun r => featureRow std r.1 r.2))

/-- The index structure of the bars DataFrame: either a MultiIndex with the
given level names, or a flat index. -/
inductive BarsIndex
  | multi (names : List String)
  | flat
deriving DecidableEq, Repr

/-- The bars DataFrame: an index plus per-symbol chronologically sorted
close columns (the `df.xs(sym).sort_index()["close"]` series,
strategy.py:13-14). -/
structure BarsFrame where
  index : BarsIndex
  rows : List (String × List ℚ)
deriving DecidableEq, Repr

/-- `isinstance(df.index, pd.MultiIndex) and "symbol" in df.index.names`
(strategy.py:8). -/
def valid_bars_index : BarsIndex → Bool
  | BarsIndex.multi names => names.contains "symbol"
  | BarsIndex.flat => false

/-- `compute_features` (strategy.py:5-36): a `None` or empty frame yields an
empty table; a non-empty frame without the symbol MultiIndex raises
`ValueError` (modelled as `Except.error`) before anything is computed;
otherwise the sorted feature table is produced. -/
def compute_features (std : List ℚ → ℚ) (df : Option BarsFrame) :
    Except String (List FeatRow) :=
  match df with
  | none => Except.ok []
  | some f =>
    if f.rows = [] then Except.ok []
    else if ¬valid_bars_index f.index then
      Except.error "Bars DataFrame must be multi-indexed by [symbol, timestamp]."
    else Except.ok (feature_table std f.rows)

/-- A concrete stand-in for the annualized-std function, used by witnesses. -/
def std_const : List ℚ → ℚ := fun _ => 0

lemma mkFeatRow_spec (sym : String) (r21 r63 vol20 mdd trend lastc : ℚ)
    (r126 v63 : Option ℚ) :
    (mkFeatRow sym r21 r63 vol20 mdd trend lastc r126 v63).score =
      0.28 * (mkFeatRow sym r21 r63 vol20 mdd trend lastc r126 v63).ret63
      + 0.28 * (mkFeatRow sym r21 r63 vol20 mdd trend lastc r126 v63).ret21
      + 0.28 * (mkFeatRow sym r21 r63 vol20 mdd trend lastc r126 v63).trend
      + 0.16 * (mkFeatRow sym r21 r63 vol20 mdd trend lastc r126 v63).qual126
      - 0.12 * (mkFeatRow sym r21 r63 vol20 mdd trend lastc r126 v63).vol20_annual
      - 0.08 * |(mkFeatRow sym r21 r63 vol20 mdd trend lastc r126 v63).maxdd| ∧
    ((mkFeatRow sym r21 r63 vol20 mdd trend lastc r126 v63).vol63_annual = 0 →
      (mkFeatRow sym r21 r63 vol20 mdd trend lastc r126 v63).qual126 = 0) ∧
    ((mkFeatRow sym r21 r63 vol20 mdd trend lastc r126 v63).vol63_annual ≠ 0 →
      (mkFeatRow sym r21 r63 vol20 mdd trend lastc r126 v63).qual126 =
        (mkFeatRow sym r21 r63 vol20 mdd trend lastc r126 v63).ret126 /
        (mkFeatRow sym r21 r63 vol20 mdd trend lastc r126 v63).vol63_annual) := by
  rcases v63 with _ | v
  · simp [mkFeatRow]
  · by_cases hv : v = 0
    · subst hv
      simp [mkFeatRow]
    · rcases r126 with _ | r
      · simp [mkFeatRow, hv]
      · simp [mkFeatRow, hv]

lemma featureRow_short (std : List ℚ → ℚ) (sym : String) (px : List ℚ)
    (h : px.length < 60) : featureRow std sym px = none := by
  simp [featureRow, h]

lemma featureRow_some (std : List ℚ → ℚ) (sym : String) (px : List ℚ) (row : FeatRow)
    (h : featureRow std sym px = some row) :
    row.symbol = sym ∧
    row.score = 0.28 * row.ret63 + 0.28 * row.ret21 + 0.28 * row.trend
      + 0.16 * row.qual126 - 0.12 * row.vol20_annual - 0.08 * |row.maxdd| ∧
    (row.vol63_annual = 0 → row.qual126 = 0) ∧
    (row.vol63_annual ≠ 0 → row.qual126 = row.ret126 / row.vol63_annual) := by
  by_cases hlen : px.length < 60
  · rw [featureRow_short std sym px hlen] at h
    exact absurd h (by simp)
  · rw [featureRow] at h
    rw [dif_neg hlen] at h
    split at h
    · have hrow := Option.some.inj h
      subst hrow
      exact ⟨rfl, mkFeatRow_spec _ _ _ _ _ _ _ _ _⟩
    · exact absurd h (by simp)

lemma nodup_keys_eq {β : Type} (l : List (String × β))
    (hnd : (l.map Prod.fst).Nodup) {k : String} {a b : β}
    (ha : (k, a) ∈ l) (hb : (k, b) ∈ l) : a = b := by
  induction l with
  | nil => simp at ha
  | cons hd rest ih =>
    obtain ⟨k₁, v⟩ := hd
    have hnd2 := hnd
    rw [List.map_cons, List.nodup_cons] at hnd2
    rcases List.mem_cons.mp ha with ha1 | ha1 <;> rcases List.mem_cons.mp hb with hb1 | hb1
    · rw [Prod.mk.injEq] at ha1 hb1
      exact ha1.2.trans hb1.2.symm
    · rw [Prod.mk.injEq] at ha1
      have hk : k ∈ rest.map Prod.fst := List.mem_map_of_mem Prod.fst hb1
      rw [ha1.1] at hk
      exact absurd hk hnd2.1
    · rw [Prod.mk.injEq] at hb1
      have hk : k ∈ rest.map Prod.fst := List.mem_map_of_mem Prod.fst ha1
      rw [hb1.1] at hk
      exact absurd hk hnd2.1
    · exact ih hnd2.2 ha1 hb1

lemma feature_table_mem (std : List ℚ → ℚ) (rows : List (String × List ℚ)) (row : FeatRow) :
    row ∈ feature_table std rows ↔
      row ∈ rows.filterMap (fun r => featureRow std r.1 r.2) :=
  (List.perm_insertionSort scoreGe _).mem_iff

lemma feature_table_sorted (std : List ℚ → ℚ) (rows : List (String × List ℚ)) :
    List.Pairwise scoreGe (feature_table std rows) :=
  List.sorted_insertionSort scoreGe _

/-- C7: every row the Feature Scorer emits satisfies the composite-score
formula `score = 0.28·ret63 + 0.28·ret21 + 0.28·trend + 0.16·qual126 −
0.12·vol20_annual − 0.08·|maxdd|`, where `qual126` is `ret126/vol63_annual`
whenever the stored 63-day volatility is nonzero and 0 when that volatility
is zero or was unavailable; the output is sorted by score descending; and a
symbol with fewer than 60 bars never appears in the output. -/
theorem compute_features_rows_spec (std : List ℚ → ℚ) (df : Option BarsFrame)
    (out : List FeatRow) (hok : compute_features std df = Except.ok out) :
    (∀ row ∈ out,
      row.score = 0.28 * row.ret63 + 0.28 * row.ret21 + 0.28 * row.trend
        + 0.16 * row.qual126 - 0.12 * row.vol20_annual - 0.08 * |row.maxdd| ∧
      (row.vol63_annual = 0 → row.qual126 = 0) ∧
      (row.vol63_annual ≠ 0 → row.qual126 = row.ret126 / row.vol63_annual)) ∧
    List.Pairwise scoreGe out ∧
    (∀ f : BarsFrame, df = some f → (f.rows.map Prod.fst).Nodup →
      ∀ sym px, (sym, px) ∈ f.rows → px.length < 60 →
        ∀ row ∈ out, row.symbol ≠ sym) := by
  rcases df with _ | f
  · have hout : out = [] := by simpa [compute_features] using hok.symm
    subst hout
    refine ⟨by simp, List.Pairwise.nil, ?_⟩
    intro f hf
    exact absurd hf (by simp)
  · rw [compute_features] at hok
    by_cases hr : f.rows = []
    · rw [if_pos hr] at hok
      have hout : out = [] := by simpa using hok.symm
      subst hout
      refine ⟨by simp, List.Pairwise.nil, ?_⟩
      intro f₂ hf₂ _ sym px hmem
      obtain rfl : f₂ = f := by simpa using hf₂.symm
      rw [hr] at hmem
      simp at hmem
    · rw [if_neg hr] at hok
      by_cases hv : valid_bars_index f.index
      · rw [if_neg (by simp [hv])] at hok
        have hout : out = feature_table std f.rows := by simpa using hok.symm
        subst hout
        refine ⟨?_, feature_table_sorted std f.rows, ?_⟩
        · intro row hrow
          obtain ⟨a, _, ha⟩ :=
            List.mem_filterMap.mp ((feature_table_mem std f.rows row).mp hrow)
          exact (featureRow_some std a.1 a.2 row ha).2
        · intro f₂ hf₂ hnd sym px hmem hlen row hrow heq
          obtain rfl : f₂ = f := by simpa using hf₂.symm
          obtain ⟨a, hamem, ha⟩ :=
            List.mem_filterMap.mp ((feature_table_mem std f₂.rows row).mp hrow)
          have hsym : a.1 = sym := heq ▸ (featureRow_some std a.1 a.2 row ha).1.symm
          have hpx : a.2 = px := by
            have hmem2 : (sym, a.2) ∈ f₂.rows := by
              rw [← hsym]
              exact hamem
            exact nodup_keys_eq f₂.rows hnd hmem2 hmem
          rw [hsym, hpx] at ha
          rw [featureRow_short std sym px hlen] at ha
          exact absurd ha (by simp)
      · rw [if_pos (by simp [hv])] at hok
        exact absurd hok (by simp)

/-- Witness for `compute_features_rows_spec`: a single symbol with 59 bars
is accepted as input and the resulting (empty) table is score-sorted. -/
theorem compute_features_rows_spec_witness :
    List.Pairwise scoreGe (feature_table std_const [("A", List.replicate 59 1)]) :=
  (compute_features_rows_spec std_const
    (some ⟨BarsIndex.multi ["symbol", "timestamp"], [("A", List.replicate 59 1)]⟩)
    (feature_table std_const [("A", List.replicate 59 1)])
    (by simp [compute_features, valid_bars_index])).2.1

/-- C10: at the Feature Scorer's public interface, a `None` or empty bar
frame returns an empty feature table without error, and the `ValueError`
is raised iff the frame is non-empty and its index is not a MultiIndex
containing the `symbol` level (strategy.py:5-9). -/
theorem compute_features_input_check (std : List ℚ → ℚ) :
    compute_features std none = Except.ok [] ∧
    (∀ f : BarsFrame, f.rows = [] → compute_features std (some f) = Except.ok []) ∧
    (∀ f : BarsFrame,
      (∃ e, compute_features std (some f) = Except.error e) ↔
        (f.rows ≠ [] ∧ valid_bars_index f.index = false)) := by
  refine ⟨rfl, ?_, ?_⟩
  · intro f hf
    simp [compute_features, hf]
  · intro f
    constructor
    · rintro ⟨e, he⟩
      rw [compute_features] at he
      by_cases hr : f.rows = []
      · rw [if_pos hr] at he
        exact absurd he (by simp)
      · rw [if_neg hr] at he
        by_cases hv : valid_bars_index f.index
        · rw [if_neg (by simp [hv])] at he
          exact absurd he (by simp)
        · exact ⟨hr, by simpa using hv⟩
    · rintro ⟨hr, hv⟩
      refine ⟨"Bars DataFrame must be multi-indexed by [symbol, timestamp].", ?_⟩
      rw [compute_features, if_neg hr, if_pos (by simp [hv])]

/-- Witness for `compute_features_input_check`: an empty frame with a valid
index yields the empty table. -/
theorem compute_features_input_check_witness :
    compute_features std_const
      (some ⟨BarsIndex.multi ["symbol", "timestamp"], []⟩) = Except.ok [] :=
  (compute_features_input_check std_const).2.1
    ⟨BarsIndex.multi ["symbol", "timestamp"], []⟩ rfl

/-- C10 counterexample: strategy.py:8 checks only that the index is a
MultiIndex containing a `symbol` level — the `timestamp` level name is never
inspected.  A non-empty frame indexed by `[symbol, date]` is not
multi-indexed by `[symbol, timestamp]`, yet `compute_features` raises no
`ValueError` and returns a table, refuting the claimed if-and-only-if. -/
theorem c10_symbol_level_only_checked :
    (⟨BarsIndex.multi ["symbol", "date"], [("A", [1])]⟩ : BarsFrame).index ≠
      BarsIndex.multi ["symbol", "timestamp"] ∧
    (⟨BarsIndex.multi ["symbol", "date"], [("A", [1])]⟩ : BarsFrame).rows ≠ [] ∧
    compute_features std_const
      (some ⟨BarsIndex.multi ["symbol", "date"], [("A", [1])]⟩) = Except.ok [] := by
  refine ⟨by simp, by simp, ?_⟩
  simp [compute_features, valid_bars_index, feature_table, featureRow]
